import Mathlib

set_option autoImplicit false

/-!
Verification development for a single-page task-manager.

The embedding below translates the state core of the application:
the task table component (task list, linear undo/redo history over
whole-list snapshots, filter/sort/paginate view pipeline, edit handler,
custom-field backfill) and the custom-fields modal (field-name
validation, field addition).

Conventions of the shallow embedding:
- JavaScript numbers used as integers are modelled as `Int`
  (history cursor, ids) or `Nat` (page numbers, sizes) as appropriate.
- `Array.prototype.slice` is modelled by `jsSliceUpTo` / `jsSlice`.
- `String.prototype.includes` is modelled by `charsContain` over the
  character lists; `toLowerCase` by `strToLower`.
- `Array.prototype.sort` with a comparator is modelled as a stable sort
  (`List.mergeSort`) on the "keep when comparator ≤ 0" relation.
- React state updates become explicit state-passing on a structure; a
  `toast.success` call appends the message to a `toasts` log.
- For the custom-field backfill, which treats tasks generically as
  key/value objects, tasks are modelled as association lists
  (`Obj`), mirroring JavaScript object key order; everywhere else the
  code only touches the fixed fields, so tasks are a structure.
-/

namespace TaskApp

universe u

/-- A task record with its fixed fields (id, title, priority, status). -/
structure Task where
  id : Int
  title : String
  priority : String
  status : String
deriving DecidableEq

/-- The state of the task-table component that the history and editing
handlers read and write: current task list, snapshot history, cursor,
and the log of success notifications. -/
structure TableState where
  tasks : List Task
  history : List (List Task)
  historyIndex : Int
  toasts : List String
deriving DecidableEq

/-- JavaScript `arr.slice(0, e)` (negative end counts from the end,
clamped to the array bounds). -/
def jsSliceUpTo {α : Type u} (l : List α) (e : Int) : List α :=
  if e < 0 then l.take ((l.length : Int) + e).toNat else l.take e.toNat

/-- `addToHistory(newTasks)`: truncate the history to
`history.slice(0, historyIndex + 1)`, append the new snapshot, and move
the cursor to the last entry. -/
def addToHistory (s : TableState) (newTasks : List Task) : TableState :=
  let newHistory := jsSliceUpTo s.history (s.historyIndex + 1) ++ [newTasks]
  { s with history := newHistory, historyIndex := (newHistory.length : Int) - 1 }

/-- `handleUndo()`: when the cursor is positive, step it back and make
the previous snapshot current. -/
def handleUndo (s : TableState) : TableState :=
  if 0 < s.historyIndex then
    { s with historyIndex := s.historyIndex - 1,
             tasks := (s.history[(s.historyIndex - 1).toNat]?).getD [] }
  else s

/-- `handleRedo()`: when the cursor is before the last entry, step it
forward and make the next snapshot current. -/
def handleRedo (s : TableState) : TableState :=
  if s.historyIndex < (s.history.length : Int) - 1 then
    { s with historyIndex := s.historyIndex + 1,
             tasks := (s.history[(s.historyIndex + 1).toNat]?).getD [] }
  else s

/-- The `setTasks(newTasks); addToHistory(newTasks)` pattern shared by
every mutating task handler: install the new list and push it. -/
def pushSnapshot (s : TableState) (newTasks : List Task) : TableState :=
  addToHistory { s with tasks := newTasks } newTasks

/-- `handleEditTask(updatedTask)`: map over the list replacing tasks
whose id matches, install and push the result, and toast success. -/
def handleEditTask (s : TableState) (updatedTask : Task) : TableState :=
  let newTasks := s.tasks.map fun task =>
    if task.id == updatedTask.id then updatedTask else task
  let s' := addToHistory { s with tasks := newTasks } newTasks
  { s' with toasts := s'.toasts ++ ["Task updated successfully!"] }

/-- One history operation: a mutation push, an undo, or a redo. -/
inductive HistOp where
  | push : List Task → HistOp
  | undo : HistOp
  | redo : HistOp

/-- Apply one history operation to the component state. -/
def applyHistOp (s : TableState) : HistOp → TableState
  | HistOp.push ts => pushSnapshot s ts
  | HistOp.undo => handleUndo s
  | HistOp.redo => handleRedo s

/-- The state after initial load: history seeded with the loaded list
and the cursor at 0 (`setHistory([storedTasks]); setHistoryIndex(0)`). -/
def initialTableState (ts : List Task) : TableState :=
  { tasks := ts, history := [ts], historyIndex := 0, toasts := [] }

/-- Run a sequence of history operations from a state. -/
def runHistOps (s : TableState) (ops : List HistOp) : TableState :=
  ops.foldl applyHistOp s

/-- The history invariant: the cursor is a valid index and the current
task list is the snapshot under the cursor. -/
abbrev HistoryInv (s : TableState) : Prop :=
  0 ≤ s.historyIndex ∧ s.historyIndex < (s.history.length : Int) ∧
    s.history[s.historyIndex.toNat]? = some s.tasks

/-- JavaScript `s.toLowerCase()`: lowercase the string character by
character (stated over the character list so that it reduces
structurally). -/
def strToLower (s : String) : String :=
  ⟨s.data.map Char.toLower⟩

/-- Filter inputs: title substring, priority selection, status
selection. -/
structure Filters where
  title : String
  priority : String
  status : String
deriving DecidableEq

/-- Does the character list `l` start with the character list `sub`? -/
def charsStartWith : List Char → List Char → Bool
  | _, [] => true
  | [], _ :: _ => false
  | c :: cs, d :: ds => c == d && charsStartWith cs ds

/-- JavaScript `l.includes(sub)` on strings, over character lists:
does `sub` occur contiguously inside `l`? -/
def charsContain : List Char → List Char → Bool
  | [], sub => charsStartWith [] sub
  | c :: cs, sub => charsStartWith (c :: cs) sub || charsContain cs sub

/-- The `filteredTasks` computation: keep a task when its lowercased
title contains the lowercased filter title, the priority filter is
"all" or matches, and the status filter is "all" or matches. -/
def filteredTasks (tasks : List Task) (filters : Filters) : List Task :=
  tasks.filter fun task =>
    charsContain (strToLower task.title).data (strToLower filters.title).data
      && (filters.priority == "all" || task.priority == filters.priority)
      && (filters.status == "all" || task.status == filters.status)

/-- The sort configuration: optional column key and direction. -/
structure SortConfig where
  key : Option String
  direction : String
deriving DecidableEq

/-- Dynamic field access `task[key]` restricted to the string-valued
fixed columns the table sorts on. -/
def taskFieldStr (t : Task) (k : String) : String :=
  if k == "title" then t.title
  else if k == "priority" then t.priority
  else if k == "status" then t.status
  else ""

/-- The comparator passed to `sort`: 0 with no key; otherwise -1/1 by
the native `<` / `>` comparison of the column values, with the sign
flipped when the direction is not "asc". -/
def taskCompare (cfg : SortConfig) (a b : Task) : Int :=
  match cfg.key with
  | none => 0
  | some key =>
    let aValue := taskFieldStr a key
    let bValue := taskFieldStr b key
    if aValue < bValue then if cfg.direction == "asc" then -1 else 1
    else if bValue < aValue then if cfg.direction == "asc" then 1 else -1
    else 0

/-- The `sortedTasks` computation: a stable sort of the filtered list
under the comparator (an element stays before another when the
comparator is ≤ 0 on the pair). -/
def sortedTasks (l : List Task) (cfg : SortConfig) : List Task :=
  l.mergeSort fun a b => decide (taskCompare cfg a b ≤ 0)

/-- JavaScript `arr.slice(b, e)` for `0 ≤ b ≤ e` as used by the
pagination code. -/
def jsSlice {α : Type u} (l : List α) (b e : Nat) : List α :=
  (l.drop b).take (e - b)

/-- The `paginatedTasks` computation:
`sorted.slice((currentPage - 1) * pageSize, currentPage * pageSize)`. -/
def paginatedTasks (sorted : List Task) (currentPage pageSize : Nat) : List Task :=
  jsSlice sorted ((currentPage - 1) * pageSize) (currentPage * pageSize)

/-- `Math.ceil(len / pageSize)` for a positive page size. -/
def totalPages (len pageSize : Nat) : Nat :=
  (len + pageSize - 1) / pageSize

/-- A custom-field descriptor `{id, name, type}`. -/
structure CustomField where
  id : Int
  name : String
  type : String
deriving DecidableEq

/-- The custom-fields modal state: descriptor list, the name and type
being typed, and the inline error message. -/
structure ModalState where
  fields : List CustomField
  newFieldName : String
  newFieldType : String
  error : String
deriving DecidableEq

/-- Is `c` an ASCII letter (the regex classes `a-z` and `A-Z`)? -/
def isAsciiLetter (c : Char) : Bool :=
  ('a' ≤ c && c ≤ 'z') || ('A' ≤ c && c ≤ 'Z')

/-- Is `c` in the regex class `[a-zA-Z0-9_]`? -/
def isIdentChar (c : Char) : Bool :=
  isAsciiLetter c || ('0' ≤ c && c ≤ '9') || c == '_'

/-- The test `/^[a-zA-Z][a-zA-Z0-9_]*$/.test(name)`. -/
def matchesFieldNamePattern (name : String) : Bool :=
  match name.data with
  | [] => false
  | c :: cs => isAsciiLetter c && cs.all isIdentChar

/-- `validateFieldName(name)`: the inline error message, or the empty
string on acceptance. Checks, in order: required, minimum length 2,
case-insensitive uniqueness against the current fields, and the
identifier pattern. -/
def validateFieldName (fields : List CustomField) (name : String) : String :=
  if name == "" then "Field name is required"
  else if name.length < 2 then "Field name must be at least 2 characters"
  else if fields.any (fun field => strToLower field.name == strToLower name) then
    "Field name must be unique"
  else if !matchesFieldNamePattern name then
    "Field name must start with a letter and contain only letters, numbers, and underscores"
  else ""

/-- `handleAddField()`: on a validation error only the error message is
set; on acceptance the field `{...newField, id: Date.now()}` is
appended, the draft is reset, and the error cleared. `now` stands for
the `Date.now()` call. -/
def handleAddField (s : ModalState) (now : Int) : ModalState :=
  let validationError := validateFieldName s.fields s.newFieldName
  if validationError != "" then { s with error := validationError }
  else
    { s with
      fields := s.fields ++ [{ id := now, name := s.newFieldName, type := s.newFieldType }],
      newFieldName := "", newFieldType := "text", error := "" }

/-- A JavaScript primitive value stored under a task key. -/
inductive JsValue where
  | str : String → JsValue
  | num : Int → JsValue
  | bool : Bool → JsValue
deriving DecidableEq

/-- A JavaScript object as an insertion-ordered association list, the
representation the backfill code manipulates generically by key. -/
abbrev Obj := List (String × JsValue)

/-- The JavaScript `k in o` test (own keys). -/
def objHasKey (o : Obj) (k : String) : Bool :=
  o.any fun entry => entry.1 == k

/-- Property read `o[k]`: the value under the first occurrence of the
key, if present. -/
def objLookup (o : Obj) (k : String) : Option JsValue :=
  (o.find? fun entry => entry.1 == k).map fun entry => entry.2

/-- The type-appropriate default the backfill writes:
checkbox → false, number → 0, otherwise the empty string. -/
def fieldDefault (field : CustomField) : JsValue :=
  if field.type == "checkbox" then JsValue.bool false
  else if field.type == "number" then JsValue.num 0
  else JsValue.str ""

/-- The per-task backfill inside `handleCustomFieldsSave`: copy the
task and, for each field in order, add the default under the field
name when the key is absent. -/
def backfillTask (fields : List CustomField) (task : Obj) : Obj :=
  fields.foldl
    (fun newTask field =>
      if !objHasKey newTask field.name then
        newTask ++ [(field.name, fieldDefault field)]
      else newTask)
    task

/-- The component state touched by `handleCustomFieldsSave`: task list,
active descriptors, and the (untouched) history. -/
structure FieldsState where
  tasks : List Obj
  customFields : List CustomField
  history : List (List Obj)
  historyIndex : Int
deriving DecidableEq

/-- `handleCustomFieldsSave(fields)`: replace the descriptor list and
backfill every task; no history call occurs in the handler. -/
def handleCustomFieldsSave (s : FieldsState) (fields : List CustomField) : FieldsState :=
  { s with customFields := fields, tasks := s.tasks.map (backfillTask fields) }

/-- The `updatedTasks` computation inside `handleCustomFieldsSave`:
every existing task backfilled. -/
def handleCustomFieldsSaveTasks (tasks : List Obj) (fields : List CustomField) : List Obj :=
  tasks.map (backfillTask fields)

/-! ### Substring search: `charsContain` implements contiguous-substring occurrence -/

lemma charsStartWith_iff (sub : List Char) :
    ∀ l, charsStartWith l sub = true ↔ ∃ r, l = sub ++ r := by
  induction sub with
  | nil =>
    intro l
    simp [charsStartWith]
  | cons d ds ih =>
    intro l
    cases l with
    | nil =>
      simp [charsStartWith]
    | cons c cs =>
      rw [charsStartWith]
      simp only [Bool.and_eq_true, beq_iff_eq, ih cs]
      constructor
      · rintro ⟨hcd, r, hr⟩
        exact ⟨r, by simp [hcd, hr]⟩
      · rintro ⟨r, hr⟩
        simp only [List.cons_append, List.cons.injEq] at hr
        exact ⟨hr.1, r, hr.2⟩

lemma charsContain_iff (sub : List Char) :
    ∀ l, charsContain l sub = true ↔ ∃ p q, l = p ++ sub ++ q := by
  intro l
  induction l with
  | nil =>
    rw [charsContain, charsStartWith_iff]
    constructor
    · rintro ⟨r, hr⟩
      exact ⟨[], r, by simp [hr]⟩
    · rintro ⟨p, q, h⟩
      rw [List.append_assoc] at h
      rcases List.append_eq_nil.mp h.symm with ⟨hp, hsq⟩
      rcases List.append_eq_nil.mp hsq with ⟨hsub, hq⟩
      exact ⟨[], by simp [hsub]⟩
  | cons c cs ih =>
    rw [charsContain]
    simp only [Bool.or_eq_true, charsStartWith_iff, ih]
    constructor
    · rintro (⟨r, hr⟩ | ⟨p, q, h⟩)
      · exact ⟨[], r, by simp [hr]⟩
      · exact ⟨c :: p, q, by simp [h]⟩
    · rintro ⟨p, q, h⟩
      cases p with
      | nil =>
        exact Or.inl ⟨q, by simpa using h⟩
      | cons x xs =>
        simp only [List.cons_append, List.cons.injEq, List.append_assoc] at h
        exact Or.inr ⟨xs, q, by simp [h.2]⟩

/-- C5: the filter step keeps a task exactly when its title contains the
filter title as a case-insensitive substring, the priority filter is
"all" or equals the priority of the task, and the status filter is
"all" or equals the status of the task. -/
theorem filteredTasks_keeps_iff (tasks : List Task) (filters : Filters) (t : Task) :
    t ∈ filteredTasks tasks filters ↔
      t ∈ tasks ∧
      (∃ p q : List Char,
        (strToLower t.title).data = p ++ (strToLower filters.title).data ++ q) ∧
      (filters.priority = "all" ∨ t.priority = filters.priority) ∧
      (filters.status = "all" ∨ t.status = filters.status) := by
  unfold filteredTasks
  rw [List.mem_filter]
  simp only [Bool.and_eq_true, Bool.or_eq_true, beq_iff_eq, charsContain_iff]
  tauto

/-- C9: saving custom fields backfills the task list in place and
leaves the snapshot history and the cursor untouched, so no history
entry records the backfill. -/
theorem customFieldsSave_preserves_history (s : FieldsState) (fields : List CustomField) :
    (handleCustomFieldsSave s fields).history = s.history ∧
    (handleCustomFieldsSave s fields).historyIndex = s.historyIndex ∧
    (handleCustomFieldsSave s fields).history.length = s.history.length ∧
    (handleCustomFieldsSave s fields).tasks = s.tasks.map (backfillTask fields) :=
  ⟨rfl, rfl, rfl, rfl⟩

/-! ### Field-name validation -/

lemma matchesFieldNamePattern_iff (name : String) :
    matchesFieldNamePattern name = true ↔
      ∃ c cs, name.data = c :: cs ∧ isAsciiLetter c = true ∧
        ∀ ch ∈ cs, isIdentChar ch = true := by
  unfold matchesFieldNamePattern
  cases h : name.data with
  | nil => simp
  | cons c cs =>
    simp only [Bool.and_eq_true, List.all_eq_true, List.cons.injEq]
    constructor
    · rintro ⟨hc, hcs⟩
      exact ⟨c, cs, ⟨rfl, rfl⟩, hc, hcs⟩
    · rintro ⟨c', cs', ⟨hc', hcs'⟩, hl, hall⟩
      subst hc'; subst hcs'
      exact ⟨hl, hall⟩

/-- C8: `validateFieldName` accepts exactly the non-empty names of
length at least 2 that duplicate no existing field name
case-insensitively and match the letter-then-word-characters pattern
(rejection is a returned message, the function is total); the four
sample names behave as stated; and on acceptance `handleAddField`
appends the descriptor `{id := now, name, type}` and resets the
draft and the error. -/
theorem validateFieldName_spec (fields : List CustomField) (name : String) :
    (validateFieldName fields name = "" ↔
      name ≠ "" ∧ 2 ≤ name.length ∧
      (∀ f ∈ fields, strToLower f.name ≠ strToLower name) ∧
      (∃ c cs, name.data = c :: cs ∧ isAsciiLetter c = true ∧
        ∀ ch ∈ cs, isIdentChar ch = true)) ∧
    validateFieldName [] "ab" = "" ∧
    validateFieldName [] "a" ≠ "" ∧
    validateFieldName [{ id := 0, name := "Budget", type := "text" }] "bUDGET" ≠ "" ∧
    validateFieldName [] "1field" ≠ "" ∧
    (∀ s : ModalState, ∀ now : Int,
      validateFieldName s.fields s.newFieldName = "" →
      handleAddField s now =
        { s with
          fields := s.fields ++
            [{ id := now, name := s.newFieldName, type := s.newFieldType }],
          newFieldName := "", newFieldType := "text", error := "" }) := by
  refine ⟨?_, by decide, by decide, by decide, by decide, ?_⟩
  · rw [← matchesFieldNamePattern_iff]
    unfold validateFieldName
    by_cases h1 : name = ""
    · simp [h1]
    · rw [if_neg (by simpa using h1)]
      by_cases h2 : name.length < 2
      · rw [if_pos (by simpa using h2)]
        constructor
        · intro h; exact absurd h (by decide)
        · rintro ⟨-, hlen, -⟩; omega
      · rw [if_neg (by simpa using h2)]
        by_cases h3 : fields.any (fun field => strToLower field.name == strToLower name) = true
        · rw [if_pos h3]
          constructor
          · intro h; exact absurd h (by decide)
          · rintro ⟨-, -, huniq, -⟩
            rcases List.any_eq_true.mp h3 with ⟨f, hf, heq⟩
            exact absurd (beq_iff_eq.mp heq) (huniq f hf)
        · rw [if_neg h3]
          by_cases h4 : matchesFieldNamePattern name = true
          · rw [if_neg (by simp [h4])]
            refine ⟨fun _ => ⟨h1, by omega, ?_, h4⟩, fun _ => rfl⟩
            intro f hf heq
            exact h3 (List.any_eq_true.mpr ⟨f, hf, beq_iff_eq.mpr heq⟩)
          · rw [if_pos (by simp [Bool.eq_false_iff.mpr h4])]
            constructor
            · intro h; exact absurd h (by decide)
            · rintro ⟨-, -, -, hpat⟩; exact absurd hpat h4
  · intro s now hva
    unfold handleAddField
    rw [hva]
    simp

/-- Witness for C8 at a concrete modal state: adding the valid name
"ab" of type "number" appends the descriptor and resets the draft. -/
theorem validateFieldName_spec_witness :
    handleAddField { fields := [], newFieldName := "ab", newFieldType := "number", error := "x" } 5 =
      { fields := [{ id := 5, name := "ab", type := "number" }],
        newFieldName := "", newFieldType := "text", error := "" } :=
  (validateFieldName_spec [] "ab").2.2.2.2.2
    { fields := [], newFieldName := "ab", newFieldType := "number", error := "x" }
    5 (by decide)

/-! ### Pagination -/

/-- A concrete task used to instantiate universally quantified
theorems. -/
def sampleTask : Task :=
  { id := 1, title := "Buy milk", priority := "none", status := "not_started" }

/-- C6: the paginate step is exactly the slice
`[(page-1)*pageSize, page*pageSize)` of the sorted list, `totalPages`
is the ceiling of the length divided by the page size (characterized
as the least page count covering the list), and with page size 10 over
25 tasks page 1 is items [0,10), page 3 is items [20,25), and there
are 3 pages. -/
theorem paginate_slice_totalPages_spec (l : List Task) (page pageSize : Nat)
    (hp : 1 ≤ page) (hs : 1 ≤ pageSize) :
    paginatedTasks l page pageSize = (l.drop ((page - 1) * pageSize)).take pageSize ∧
    l.length ≤ totalPages l.length pageSize * pageSize ∧
    (∀ m, l.length ≤ m * pageSize → totalPages l.length pageSize ≤ m) ∧
    (l.length = 25 ∧ pageSize = 10 →
      paginatedTasks l 1 10 = l.take 10 ∧
      paginatedTasks l 3 10 = (l.drop 20).take 5 ∧
      totalPages l.length pageSize = 3) := by
  refine ⟨?_, ?_, ?_, ?_⟩
  · unfold paginatedTasks jsSlice
    congr 1
    obtain ⟨k, rfl⟩ : ∃ k, page = k + 1 := ⟨page - 1, by omega⟩
    simp only [Nat.add_sub_cancel]
    rw [Nat.succ_mul]
    omega
  · unfold totalPages
    have hmod := Nat.div_add_mod (l.length + pageSize - 1) pageSize
    have hlt : (l.length + pageSize - 1) % pageSize < pageSize :=
      Nat.mod_lt _ (by omega)
    rw [Nat.mul_comm pageSize ((l.length + pageSize - 1) / pageSize)] at hmod
    generalize ((l.length + pageSize - 1) / pageSize) * pageSize = t at hmod ⊢
    omega
  · intro m hm
    unfold totalPages
    rw [← Nat.lt_succ_iff, Nat.div_lt_iff_lt_mul (by omega), Nat.succ_mul]
    generalize m * pageSize = t at hm ⊢
    omega
  · rintro ⟨h25, h10⟩
    refine ⟨?_, ?_, ?_⟩
    · unfold paginatedTasks jsSlice
      norm_num
    · unfold paginatedTasks jsSlice
      have hlen : (l.drop 20).length = 5 := by
        rw [List.length_drop, h25]
      norm_num
      omega
    · rw [h25, h10]
      decide

/-- Witness for C6 on a concrete 25-task list with page size 10. -/
theorem paginate_slice_totalPages_spec_witness :
    paginatedTasks (List.replicate 25 sampleTask) 1 10 =
      (List.replicate 25 sampleTask).take 10 ∧
    paginatedTasks (List.replicate 25 sampleTask) 3 10 =
      ((List.replicate 25 sampleTask).drop 20).take 5 ∧
    totalPages (List.replicate 25 sampleTask).length 10 = 3 :=
  (paginate_slice_totalPages_spec (List.replicate 25 sampleTask) 3 10
    (by decide) (by decide)).2.2.2 ⟨by simp, rfl⟩

/-! ### Custom-field backfill over key/value objects -/

lemma backfillTask_cons (f : CustomField) (fs : List CustomField) (task : Obj) :
    backfillTask (f :: fs) task =
      backfillTask fs
        (if !objHasKey task f.name then task ++ [(f.name, fieldDefault f)] else task) :=
  rfl

lemma objHasKey_append (o : Obj) (k k' : String) (v : JsValue) :
    objHasKey (o ++ [(k', v)]) k = (objHasKey o k || (k' == k)) := by
  simp [objHasKey]

lemma objLookup_none_of_hasKey_false (o : Obj) (k : String)
    (h : objHasKey o k = false) : objLookup o k = none := by
  unfold objLookup
  rw [List.find?_eq_none.mpr]
  · rfl
  · intro e he hbeq
    have : objHasKey o k = true := by
      simp only [objHasKey, List.any_eq_true]
      exact ⟨e, he, hbeq⟩
    rw [this] at h
    cases h

lemma objHasKey_cons (e : String × JsValue) (es : Obj) (k : String) :
    objHasKey (e :: es) k = ((e.1 == k) || objHasKey es k) := by
  simp [objHasKey]

lemma objLookup_cons_pos (e : String × JsValue) (es : Obj) (k : String)
    (he : (e.1 == k) = true) : objLookup (e :: es) k = some e.2 := by
  simp [objLookup, List.find?_cons, he]

lemma objLookup_cons_neg (e : String × JsValue) (es : Obj) (k : String)
    (he : (e.1 == k) = false) : objLookup (e :: es) k = objLookup es k := by
  simp [objLookup, List.find?_cons, he]

lemma objLookup_append (o : Obj) (k k' : String) (v : JsValue) :
    objLookup (o ++ [(k', v)]) k =
      if objHasKey o k then objLookup o k
      else if k' == k then some v else none := by
  induction o with
  | nil =>
    by_cases hk : (k' == k) = true
    · simp [objLookup, objHasKey, List.find?, hk]
    · simp [objLookup, objHasKey, List.find?, hk]
  | cons e es ih =>
    rw [List.cons_append]
    by_cases he : (e.1 == k) = true
    · simp [objLookup_cons_pos _ _ _ he, objHasKey_cons, he]
    · have he' : (e.1 == k) = false := Bool.eq_false_iff.mpr he
      simp only [objLookup_cons_neg _ _ _ he', objHasKey_cons, he', Bool.false_or]
      exact ih

lemma backfillTask_hasKey (fields : List CustomField) (task : Obj) (k : String) :
    objHasKey (backfillTask fields task) k =
      (objHasKey task k || fields.any fun f => f.name == k) := by
  induction fields generalizing task with
  | nil => simp [backfillTask]
  | cons f fs ih =>
    rw [backfillTask_cons]
    by_cases h : objHasKey task f.name
    · rw [if_neg (by simp [h]), ih]
      by_cases hk : (f.name == k) = true
      · have hkey : objHasKey task k = true := by
          rw [← beq_iff_eq.mp hk]; exact h
        simp [hkey, hk]
      · simp [List.any_cons, hk]
    · rw [if_pos (by simp [h]), ih, objHasKey_append]
      simp [List.any_cons, Bool.or_assoc]

lemma backfillTask_lookup_of_hasKey (fields : List CustomField) (task : Obj)
    (k : String) (h : objHasKey task k = true) :
    objLookup (backfillTask fields task) k = objLookup task k := by
  induction fields generalizing task with
  | nil => simp [backfillTask]
  | cons f fs ih =>
    rw [backfillTask_cons]
    by_cases hf : objHasKey task f.name
    · rw [if_neg (by simp [hf])]
      exact ih task h
    · rw [if_pos (by simp [hf])]
      rw [ih _ (by rw [objHasKey_append, h]; simp)]
      rw [objLookup_append, if_pos h]

lemma backfillTask_lookup_of_not_hasKey (fields : List CustomField) (task : Obj)
    (k : String) (h : objHasKey task k = false) :
    objLookup (backfillTask fields task) k =
      (fields.find? (fun f => f.name == k)).map (fun f => fieldDefault f) := by
  induction fields generalizing task with
  | nil =>
    simp only [backfillTask, List.foldl_nil, List.find?_nil, Option.map_none]
    exact objLookup_none_of_hasKey_false task k h
  | cons f fs ih =>
    rw [backfillTask_cons]
    by_cases hk : (f.name == k) = true
    · have hf : objHasKey task f.name = false := by
        rw [beq_iff_eq.mp hk]; exact h
      simp only [List.find?_cons, hk]
      rw [if_pos (by simp [hf])]
      rw [backfillTask_lookup_of_hasKey fs _ k (by rw [objHasKey_append, h, hk]; rfl)]
      rw [objLookup_append, if_neg (by simp [h]), if_pos hk]
      rfl
    · simp only [List.find?_cons, Bool.eq_false_iff.mpr hk]
      by_cases hf : objHasKey task f.name
      · rw [if_neg (by simp [hf])]
        exact ih task h
      · rw [if_pos (by simp [hf])]
        apply ih
        rw [objHasKey_append, h, Bool.false_or]
        exact Bool.eq_false_iff.mpr hk

/-- C10: the backfill preserves the number and order of tasks; on each
task it never changes or removes a key that is already present
(standard fields included), and for an absent key it adds exactly the
default of the first field descriptor carrying that name (false for
checkbox, 0 for number, the empty string for text), or leaves the key
absent when no descriptor names it. -/
theorem backfill_preserves_tasks_and_keys (tasks : List Obj) (fields : List CustomField) :
    (handleCustomFieldsSaveTasks tasks fields).length = tasks.length ∧
    (∀ (i : Nat) (t : Obj), tasks[i]? = some t →
      (handleCustomFieldsSaveTasks tasks fields)[i]? = some (backfillTask fields t) ∧
      (∀ k, objHasKey t k = true →
        objHasKey (backfillTask fields t) k = true ∧
        objLookup (backfillTask fields t) k = objLookup t k) ∧
      (∀ k, objHasKey t k = false →
        objLookup (backfillTask fields t) k =
          (fields.find? (fun f => f.name == k)).map (fun f => fieldDefault f))) := by
  refine ⟨by simp [handleCustomFieldsSaveTasks], ?_⟩
  intro i t ht
  refine ⟨?_, ?_, ?_⟩
  · simp [handleCustomFieldsSaveTasks, ht]
  · intro k hk
    refine ⟨?_, backfillTask_lookup_of_hasKey fields t k hk⟩
    rw [backfillTask_hasKey, hk, Bool.true_or]
  · intro k hk
    exact backfillTask_lookup_of_not_hasKey fields t k hk

/-- Witness for C10: backfilling a one-task list with a checkbox field
"done" adds the key "done" with value `false` to the task that lacked
it. -/
theorem backfill_preserves_tasks_and_keys_witness :
    objLookup
        (backfillTask [{ id := 5, name := "done", type := "checkbox" }]
          [("title", JsValue.str "x")])
        "done" =
      (([{ id := 5, name := "done", type := "checkbox" }] :
          List CustomField).find? (fun f => f.name == "done")).map
        (fun f => fieldDefault f) :=
  ((backfill_preserves_tasks_and_keys [[("title", JsValue.str "x")]]
      [{ id := 5, name := "done", type := "checkbox" }]).2 0
      [("title", JsValue.str "x")] rfl).2.2 "done" (by decide)

/-! ### History: push, undo, redo -/

lemma jsSliceUpTo_of_nonneg {α : Type u} (l : List α) (e : Int) (h : 0 ≤ e) :
    jsSliceUpTo l e = l.take e.toNat := by
  unfold jsSliceUpTo
  rw [if_neg (by omega)]

lemma addToHistory_eq (s : TableState) (ts : List Task) (h0 : 0 ≤ s.historyIndex) :
    addToHistory s ts =
      { s with
        history := s.history.take (s.historyIndex + 1).toNat ++ [ts],
        historyIndex :=
          ((s.history.take (s.historyIndex + 1).toNat ++ [ts]).length : Int) - 1 } := by
  unfold addToHistory
  rw [jsSliceUpTo_of_nonneg _ _ (by omega)]

lemma take_hist_length (s : TableState) (h0 : 0 ≤ s.historyIndex)
    (h1 : s.historyIndex < (s.history.length : Int)) :
    (s.history.take (s.historyIndex + 1).toNat).length = s.historyIndex.toNat + 1 := by
  rw [List.length_take]
  omega

/-- C1: from any state with a valid cursor, push keeps the cursor a
valid index and replaces the history with the prefix up to the cursor
followed by the new snapshot, and undo and redo each keep the cursor a
valid index. -/
theorem history_ops_cursor_valid (s : TableState) (ts : List Task)
    (h0 : 0 ≤ s.historyIndex) (h1 : s.historyIndex < (s.history.length : Int)) :
    (0 ≤ (pushSnapshot s ts).historyIndex ∧
      (pushSnapshot s ts).historyIndex < ((pushSnapshot s ts).history.length : Int)) ∧
    (pushSnapshot s ts).history = s.history.take (s.historyIndex + 1).toNat ++ [ts] ∧
    (0 ≤ (handleUndo s).historyIndex ∧
      (handleUndo s).historyIndex < ((handleUndo s).history.length : Int)) ∧
    (0 ≤ (handleRedo s).historyIndex ∧
      (handleRedo s).historyIndex < ((handleRedo s).history.length : Int)) := by
  refine ⟨?_, ?_, ?_, ?_⟩
  · unfold pushSnapshot
    rw [addToHistory_eq _ _ (by exact h0)]
    simp only [List.length_append, List.length_take, List.length_cons, List.length_nil]
    omega
  · unfold pushSnapshot
    rw [addToHistory_eq _ _ (by exact h0)]
  · unfold handleUndo
    by_cases hc : 0 < s.historyIndex
    · rw [if_pos hc]
      simp only []
      omega
    · rw [if_neg hc]
      exact ⟨h0, h1⟩
  · unfold handleRedo
    by_cases hc : s.historyIndex < (s.history.length : Int) - 1
    · rw [if_pos hc]
      simp only []
      omega
    · rw [if_neg hc]
      exact ⟨h0, h1⟩

/-- Witness for C1 from the freshly initialized one-snapshot state. -/
theorem history_ops_cursor_valid_witness :
    (pushSnapshot (initialTableState [sampleTask]) []).history =
      (initialTableState [sampleTask]).history.take
        ((initialTableState [sampleTask]).historyIndex + 1).toNat ++ [[]] :=
  (history_ops_cursor_valid (initialTableState [sampleTask]) []
    (by decide) (by decide)).2.1

lemma historyInv_initial (ts : List Task) : HistoryInv (initialTableState ts) := by
  refine ⟨by simp [initialTableState], by simp [initialTableState], ?_⟩
  simp [initialTableState]

lemma historyInv_push (s : TableState) (ts : List Task) (h : HistoryInv s) :
    HistoryInv (pushSnapshot s ts) := by
  obtain ⟨h0, h1, h2⟩ := h
  unfold pushSnapshot
  rw [addToHistory_eq _ _ (by exact h0)]
  refine ⟨?_, ?_, ?_⟩
  · simp only [List.length_append, List.length_take, List.length_cons, List.length_nil]
    omega
  · simp only [List.length_append, List.length_take, List.length_cons, List.length_nil]
    omega
  · simp only []
    have hlen : (s.history.take (s.historyIndex + 1).toNat).length = s.historyIndex.toNat + 1 :=
      take_hist_length s h0 h1
    have hidx :
        ((((s.history.take (s.historyIndex + 1).toNat ++ [ts]).length : Int) - 1)).toNat =
          (s.history.take (s.historyIndex + 1).toNat).length := by
      simp only [List.length_append, List.length_cons, List.length_nil]
      omega
    rw [hidx, List.getElem?_concat_length]

lemma historyInv_undo (s : TableState) (h : HistoryInv s) : HistoryInv (handleUndo s) := by
  obtain ⟨h0, h1, h2⟩ := h
  unfold handleUndo
  by_cases hc : 0 < s.historyIndex
  · rw [if_pos hc]
    refine ⟨by simp only []; omega, by simp only []; omega, ?_⟩
    simp only []
    rcases hx : s.history[(s.historyIndex - 1).toNat]? with _ | x
    · rw [List.getElem?_eq_none_iff] at hx
      omega
    · simp [hx]
  · rw [if_neg hc]
    exact ⟨h0, h1, h2⟩

lemma historyInv_redo (s : TableState) (h : HistoryInv s) : HistoryInv (handleRedo s) := by
  obtain ⟨h0, h1, h2⟩ := h
  unfold handleRedo
  by_cases hc : s.historyIndex < (s.history.length : Int) - 1
  · rw [if_pos hc]
    refine ⟨by simp only []; omega, by simp only []; omega, ?_⟩
    simp only []
    rcases hx : s.history[(s.historyIndex + 1).toNat]? with _ | x
    · rw [List.getElem?_eq_none_iff] at hx
      omega
    · simp [hx]
  · rw [if_neg hc]
    exact ⟨h0, h1, h2⟩

lemma historyInv_apply (s : TableState) (op : HistOp) (h : HistoryInv s) :
    HistoryInv (applyHistOp s op) := by
  cases op with
  | push ts => exact historyInv_push s ts h
  | undo => exact historyInv_undo s h
  | redo => exact historyInv_redo s h

lemma historyInv_run (s : TableState) (ops : List HistOp) (h : HistoryInv s) :
    HistoryInv (runHistOps s ops) := by
  induction ops generalizing s with
  | nil => exact h
  | cons op ops ih => exact ih _ (historyInv_apply s op h)

lemma undo_push_tasks (s : TableState) (ts : List Task) (h : HistoryInv s) :
    (handleUndo (pushSnapshot s ts)).tasks = s.tasks := by
  obtain ⟨h0, h1, h2⟩ := h
  have hlen : (s.history.take (s.historyIndex + 1).toNat).length = s.historyIndex.toNat + 1 :=
    take_hist_length s h0 h1
  unfold pushSnapshot
  rw [addToHistory_eq _ _ (by exact h0)]
  unfold handleUndo
  rw [if_pos (by simp only [List.length_append, List.length_cons, List.length_nil]; omega)]
  simp only []
  have hidx :
      (((((s.history.take (s.historyIndex + 1).toNat ++ [ts]).length : Int) - 1) - 1)).toNat =
        s.historyIndex.toNat := by
    simp only [List.length_append, List.length_cons, List.length_nil]
    omega
  rw [hidx, List.getElem?_append_left (by omega),
    List.getElem?_take_of_lt (by omega), h2]
  rfl

lemma redo_undo_tasks (s : TableState) (h : HistoryInv s) (hpos : 0 < s.historyIndex) :
    (handleRedo (handleUndo s)).tasks = s.tasks := by
  obtain ⟨h0, h1, h2⟩ := h
  unfold handleUndo
  rw [if_pos hpos]
  unfold handleRedo
  rw [if_pos (by simp only []; omega)]
  simp only []
  have hidx : ((s.historyIndex - 1) + 1).toNat = s.historyIndex.toNat := by omega
  rw [hidx, h2]
  rfl

/-- C2: along any sequence of push/undo/redo operations from the
initialized state, undo immediately after a push restores the task
list that was current just before the push, and redo immediately after
a cursor-moving undo restores the task list the undo stepped away
from. -/
theorem undo_redo_inverse (ts : List Task) (ops : List HistOp) (pushTs : List Task) :
    (handleUndo (pushSnapshot (runHistOps (initialTableState ts) ops) pushTs)).tasks =
      (runHistOps (initialTableState ts) ops).tasks ∧
    (0 < (runHistOps (initialTableState ts) ops).historyIndex →
      (handleRedo (handleUndo (runHistOps (initialTableState ts) ops))).tasks =
        (runHistOps (initialTableState ts) ops).tasks) := by
  have hinv := historyInv_run _ ops (historyInv_initial ts)
  exact ⟨undo_push_tasks _ pushTs hinv, fun hpos => redo_undo_tasks _ hinv hpos⟩

/-- Witness for C2 after one concrete push, where the cursor is
positive. -/
theorem undo_redo_inverse_witness :
    (handleUndo (pushSnapshot (runHistOps (initialTableState []) [HistOp.push [sampleTask]])
        [sampleTask, sampleTask])).tasks =
      (runHistOps (initialTableState []) [HistOp.push [sampleTask]]).tasks ∧
    (handleRedo (handleUndo (runHistOps (initialTableState []) [HistOp.push [sampleTask]]))).tasks =
      (runHistOps (initialTableState []) [HistOp.push [sampleTask]]).tasks :=
  ⟨(undo_redo_inverse [] [HistOp.push [sampleTask]] [sampleTask, sampleTask]).1,
    (undo_redo_inverse [] [HistOp.push [sampleTask]] [sampleTask, sampleTask]).2 (by decide)⟩

lemma handleUndo_nonneg (s : TableState) (h0 : 0 ≤ s.historyIndex) :
    0 ≤ (handleUndo s).historyIndex := by
  unfold handleUndo
  by_cases hc : 0 < s.historyIndex
  · rw [if_pos hc]
    simp only []
    omega
  · rw [if_neg hc]
    exact h0

lemma handleUndo_iter_nonneg (n : Nat) (s : TableState) (h0 : 0 ≤ s.historyIndex) :
    0 ≤ (handleUndo^[n] s).historyIndex := by
  induction n generalizing s with
  | zero => exact h0
  | succ n ih =>
    rw [Function.iterate_succ_apply]
    exact ih _ (handleUndo_nonneg s h0)

lemma handleRedo_after_addToHistory (s : TableState) (ts : List Task) :
    handleRedo (addToHistory s ts) = addToHistory s ts := by
  have hx : (addToHistory s ts).historyIndex =
      ((addToHistory s ts).history.length : Int) - 1 := rfl
  unfold handleRedo
  rw [if_neg (by omega)]

/-- C3: after one or more undo calls from a valid-cursor state, a push
replaces the history with the prefix ending at the cursor followed by
the new snapshot, sets the cursor to the last index, and a subsequent
redo leaves the whole state (cursor and task list included)
unchanged. -/
theorem push_after_undo_truncates (s : TableState) (ts : List Task) (n : Nat)
    (h0 : 0 ≤ s.historyIndex) (h1 : s.historyIndex < (s.history.length : Int)) :
    (pushSnapshot (handleUndo^[n + 1] s) ts).history =
      (handleUndo^[n + 1] s).history.take
        ((handleUndo^[n + 1] s).historyIndex + 1).toNat ++ [ts] ∧
    (pushSnapshot (handleUndo^[n + 1] s) ts).historyIndex =
      (((pushSnapshot (handleUndo^[n + 1] s) ts).history.length : Int)) - 1 ∧
    handleRedo (pushSnapshot (handleUndo^[n + 1] s) ts) =
      pushSnapshot (handleUndo^[n + 1] s) ts := by
  have hu0 : 0 ≤ (handleUndo^[n + 1] s).historyIndex :=
    handleUndo_iter_nonneg (n + 1) s h0
  refine ⟨?_, rfl, ?_⟩
  · unfold pushSnapshot
    rw [addToHistory_eq _ _ (by exact hu0)]
  · unfold pushSnapshot
    exact handleRedo_after_addToHistory _ ts

/-- Witness for C3: one undo on the initialized state, then a push,
after which redo changes nothing. -/
theorem push_after_undo_truncates_witness :
    handleRedo (pushSnapshot (handleUndo^[1] (initialTableState [sampleTask])) []) =
      pushSnapshot (handleUndo^[1] (initialTableState [sampleTask])) [] :=
  (push_after_undo_truncates (initialTableState [sampleTask]) [] 0
    (by decide) (by decide)).2.2

/-! ### Task editing -/

lemma map_edit_of_no_match (u : Task) :
    ∀ l : List Task, (∀ t ∈ l, t.id ≠ u.id) →
      (l.map fun task => if task.id == u.id then u else task) = l := by
  intro l h
  induction l with
  | nil => rfl
  | cons t rest ih =>
    have ht : ¬(t.id == u.id) = true := by
      simp [h t (List.mem_cons_self t rest)]
    rw [List.map_cons, if_neg ht,
      ih fun t' ht' => h t' (List.mem_cons_of_mem _ ht')]

lemma handleEditTask_tasks (s : TableState) (u : Task) :
    (handleEditTask s u).tasks =
      s.tasks.map fun task => if task.id == u.id then u else task := rfl

/-- The freshly initialized state over the one-task list
`[sampleTask]`, used as a concrete editing scenario. -/
def editState1 : TableState :=
  { tasks := [sampleTask], history := [[sampleTask]], historyIndex := 0, toasts := [] }

/-- An update whose id (99) matches no task of `editState1`. -/
def ghostTask : Task :=
  { id := 99, title := "ghost", priority := "none", status := "not_started" }

/-- An update carrying the id of `sampleTask` with changed fields. -/
def editedTask : Task :=
  { id := 1, title := "Buy bread", priority := "high", status := "completed" }

/-- C4 counterexample: editing with an id (99) matching no task leaves
the list content unchanged but still pushes a history entry and still
emits the success notification, contradicting "no history entry is
pushed and no success notification is emitted". -/
theorem handleEditTask_silent_noop_counterexample :
    (∀ t ∈ editState1.tasks, t.id ≠ ghostTask.id) ∧
    (handleEditTask editState1 ghostTask).tasks = editState1.tasks ∧
    (handleEditTask editState1 ghostTask).history.length =
      editState1.history.length + 1 ∧
    (handleEditTask editState1 ghostTask).toasts =
      editState1.toasts ++ ["Task updated successfully!"] := by
  decide

/-- C4 amended: `handleEditTask` always pushes exactly one history
entry (the mapped list, after truncating at the cursor) and always
emits the success notification; when no task id matches the update the
task list content is unchanged, and when exactly one task matches it
is replaced in place and nothing else changes in the list. -/
theorem handleEditTask_spec (s : TableState) (u : Task) (h0 : 0 ≤ s.historyIndex) :
    (handleEditTask s u).history =
      s.history.take (s.historyIndex + 1).toNat ++ [(handleEditTask s u).tasks] ∧
    (handleEditTask s u).toasts = s.toasts ++ ["Task updated successfully!"] ∧
    ((∀ t ∈ s.tasks, t.id ≠ u.id) → (handleEditTask s u).tasks = s.tasks) ∧
    (∀ pre t post, s.tasks = pre ++ t :: post → t.id = u.id →
      (∀ t' ∈ pre, t'.id ≠ u.id) → (∀ t' ∈ post, t'.id ≠ u.id) →
      (handleEditTask s u).tasks = pre ++ u :: post) := by
  refine ⟨?_, rfl, ?_, ?_⟩
  · show (addToHistory
        { s with tasks := s.tasks.map fun task => if task.id == u.id then u else task }
        (s.tasks.map fun task => if task.id == u.id then u else task)).history = _
    rw [addToHistory_eq _ _ (by exact h0)]
    rfl
  · intro h
    rw [handleEditTask_tasks]
    exact map_edit_of_no_match u s.tasks h
  · intro pre t post hsplit ht hpre hpost
    rw [handleEditTask_tasks, hsplit, List.map_append, List.map_cons,
      if_pos (by simp [ht]), map_edit_of_no_match u pre hpre,
      map_edit_of_no_match u post hpost]

/-- Witness for C4 amended: editing the single matching task replaces
it in place. -/
theorem handleEditTask_spec_witness :
    (handleEditTask editState1 editedTask).tasks = [] ++ editedTask :: ([] : List Task) :=
  (handleEditTask_spec editState1 editedTask (by decide)).2.2.2
    [] sampleTask [] rfl (by decide) (by decide) (by decide)

/-! ### Sorting by title -/

lemma taskCompare_title_asc_le (a b : Task) :
    taskCompare { key := some "title", direction := "asc" } a b ≤ 0 ↔
      a.title ≤ b.title := by
  unfold taskCompare taskFieldStr
  simp only [beq_self_eq_true, if_true]
  rcases lt_trichotomy a.title b.title with h | h | h
  · simp [h, le_of_lt h]
  · simp [h, lt_irrefl]
  · simp [h, lt_asymm h, not_le.mpr h]

lemma taskCompare_title_desc_le (a b : Task) :
    taskCompare { key := some "title", direction := "desc" } a b ≤ 0 ↔
      b.title ≤ a.title := by
  unfold taskCompare taskFieldStr
  simp only [beq_self_eq_true, if_true]
  have hdir : ("desc" == "asc") = false := by decide
  rcases lt_trichotomy a.title b.title with h | h | h
  · simp [h, hdir, not_le.mpr h]
  · simp [h, lt_irrefl]
  · simp [h, lt_asymm h, hdir, le_of_lt h]

/-- C7: sorting by "title" both ways permutes the filtered list, and
when the titles are pairwise distinct the descending result is exactly
the reverse of the ascending result. -/
theorem sort_title_desc_reverse_of_asc (l : List Task) :
    List.Perm (sortedTasks l { key := some "title", direction := "asc" }) l ∧
    List.Perm (sortedTasks l { key := some "title", direction := "desc" }) l ∧
    (List.Pairwise (fun a b => a.title ≠ b.title) l →
      sortedTasks l { key := some "title", direction := "desc" } =
        (sortedTasks l { key := some "title", direction := "asc" }).reverse) := by
  have hpermA :
      List.Perm (sortedTasks l { key := some "title", direction := "asc" }) l :=
    List.mergeSort_perm l _
  have hpermD :
      List.Perm (sortedTasks l { key := some "title", direction := "desc" }) l :=
    List.mergeSort_perm l _
  refine ⟨hpermA, hpermD, ?_⟩
  intro hd
  have hne_symm : ∀ {x y : Task},
      (fun a b : Task => a.title ≠ b.title) x y →
      (fun a b : Task => a.title ≠ b.title) y x :=
    fun h heq => h heq.symm
  have htransA : ∀ a b c : Task,
      (fun a b : Task =>
        decide (taskCompare { key := some "title", direction := "asc" } a b ≤ 0)) a b →
      (fun a b : Task =>
        decide (taskCompare { key := some "title", direction := "asc" } a b ≤ 0)) b c →
      (fun a b : Task =>
        decide (taskCompare { key := some "title", direction := "asc" } a b ≤ 0)) a c := by
    intro a b c hab hbc
    simp only [decide_eq_true_eq, taskCompare_title_asc_le] at hab hbc ⊢
    exact le_trans hab hbc
  have htotalA : ∀ a b : Task,
      ((fun a b : Task =>
        decide (taskCompare { key := some "title", direction := "asc" } a b ≤ 0)) a b ||
       (fun a b : Task =>
        decide (taskCompare { key := some "title", direction := "asc" } a b ≤ 0)) b a) = true := by
    intro a b
    rcases le_total a.title b.title with h | h <;>
      simp [taskCompare_title_asc_le, h]
  have htransD : ∀ a b c : Task,
      (fun a b : Task =>
        decide (taskCompare { key := some "title", direction := "desc" } a b ≤ 0)) a b →
      (fun a b : Task =>
        decide (taskCompare { key := some "title", direction := "desc" } a b ≤ 0)) b c →
      (fun a b : Task =>
        decide (taskCompare { key := some "title", direction := "desc" } a b ≤ 0)) a c := by
    intro a b c hab hbc
    simp only [decide_eq_true_eq, taskCompare_title_desc_le] at hab hbc ⊢
    exact le_trans hbc hab
  have htotalD : ∀ a b : Task,
      ((fun a b : Task =>
        decide (taskCompare { key := some "title", direction := "desc" } a b ≤ 0)) a b ||
       (fun a b : Task =>
        decide (taskCompare { key := some "title", direction := "desc" } a b ≤ 0)) b a) = true := by
    intro a b
    rcases le_total a.title b.title with h | h <;>
      simp [taskCompare_title_desc_le, h]
  have hsortA :
      (sortedTasks l { key := some "title", direction := "asc" }).Pairwise
        (fun a b => a.title ≤ b.title) :=
    (List.sorted_mergeSort htransA htotalA l).imp
      fun h => (taskCompare_title_asc_le _ _).mp (of_decide_eq_true h)
  have hsortD :
      (sortedTasks l { key := some "title", direction := "desc" }).Pairwise
        (fun a b => b.title ≤ a.title) :=
    (List.sorted_mergeSort htransD htotalD l).imp
      fun h => (taskCompare_title_desc_le _ _).mp (of_decide_eq_true h)
  have hdA :
      (sortedTasks l { key := some "title", direction := "asc" }).Pairwise
        (fun a b => a.title ≠ b.title) :=
    (List.Perm.pairwise_iff hne_symm hpermA).mpr hd
  have hdD :
      (sortedTasks l { key := some "title", direction := "desc" }).Pairwise
        (fun a b => a.title ≠ b.title) :=
    (List.Perm.pairwise_iff hne_symm hpermD).mpr hd
  have hstrictA :
      (sortedTasks l { key := some "title", direction := "asc" }).Pairwise
        (fun a b => a.title < b.title) :=
    List.Pairwise.imp₂ (fun _ _ hle hne => lt_of_le_of_ne hle hne) hsortA hdA
  have hstrictD :
      (sortedTasks l { key := some "title", direction := "desc" }).Pairwise
        (fun a b => b.title < a.title) :=
    List.Pairwise.imp₂ (fun _ _ hle hne => lt_of_le_of_ne hle (fun h => hne h.symm))
      hsortD hdD
  have hrevA :
      ((sortedTasks l { key := some "title", direction := "asc" }).reverse).Pairwise
        (fun a b => b.title < a.title) :=
    List.pairwise_reverse.mpr hstrictA
  have hperm :
      List.Perm (sortedTasks l { key := some "title", direction := "desc" })
        ((sortedTasks l { key := some "title", direction := "asc" }).reverse) :=
    (hpermD.trans hpermA.symm).trans (List.reverse_perm _).symm
  haveI : IsAntisymm Task (fun a b => b.title < a.title) :=
    ⟨fun _ _ h1 h2 => absurd h2 (lt_asymm h1)⟩
  exact List.eq_of_perm_of_sorted hperm hstrictD hrevA

/-- A second concrete task with a distinct title, for the sorting
witness. -/
def taskAlpha : Task :=
  { id := 2, title := "Alpha", priority := "high", status := "completed" }

/-- Witness for C7 on a concrete two-task list with distinct titles. -/
theorem sort_title_desc_reverse_of_asc_witness :
    sortedTasks [sampleTask, taskAlpha] { key := some "title", direction := "desc" } =
      (sortedTasks [sampleTask, taskAlpha]
        { key := some "title", direction := "asc" }).reverse :=
  (sort_title_desc_reverse_of_asc [sampleTask, taskAlpha]).2.2 (by decide)

end TaskApp
